import Mathlib

/-!
# Verification of the nsri local media index and cache

Shallow embedding of the cache subsystem implemented in
`src/app/fileCache.server.ts`, together with theorems settling the frozen
claims about it.  Definitions follow the TypeScript source (and, where the
behaviour is decided by the embedded SQLite database, SQLite's documented
semantics); theorems relate them to the specification.
-/

namespace Nsri

/-! ## Playlist items

Every SQL statement issued by the playlist-item operations carries a
`WHERE playlist_id = ?` filter, so the rows of one playlist form an
independent sublist of the `playlist_items` table.  The per-playlist
operations below model exactly those rows; the `playlist_id` column is
therefore implicit.  `order_index` is an SQL `INTEGER` and
`reorderPlaylistItem` receives `newIndex` unchecked, so it is `Int`. -/

/-! ## File records, hashing and thumbnails

`hashFile`, `generateThumbnail` and `getOrCreateFileRecord` interact with
the filesystem and spawn ffmpeg.  The environment `Env` carries the
oracles for those interactions (`path.resolve`, `fs.stat`, the digest
`hashFile` would produce, whether a frame extraction succeeds, the
duration probe); the `World` carries the mutable thumbnail directory; and
every external action is logged as an `Eff`. -/

/-- One row of the `files` table (interface `FileRecord` in
`fileCache.server.ts`).  `duration` is `REAL` in the schema; its numeric
value is irrelevant to every claim, so it is modelled as `Option Nat`
(seconds, `none` = SQL `NULL`). -/
structure FileRecord where
  path : String
  hash : String
  size : Nat
  mtime : Nat
  duration : Option Nat
  directory : String
  filename : String
  thumbnail_path : Option String
deriving Repr, DecidableEq

/-- The loop body of `FileCache.deduplicateFiles`: `files.filter` with a
mutable `seen : Set<string>` threaded through, translated to explicit
accumulator passing.  `seen` collects the hashes already kept. -/
def dedupLoop : List FileRecord → List String → List FileRecord
  | [], _ => []
  | f :: rest, seen =>
      if seen.contains f.hash then dedupLoop rest seen
      else f :: dedupLoop rest (f.hash :: seen)

/-- Embedding of `FileCache.deduplicateFiles(files)` (`fileCache.server.ts` lines
412–421): remove duplicate records from a list, keeping only the first
occurrence of each hash. -/
def deduplicateFiles (files : List FileRecord) : List FileRecord :=
  dedupLoop files []

/-- Modelled from the spec's contract for §4.4 (for the refinement
comparison only): keep, for each group of records sharing a hash, the
first occurrence in input order. -/
def keepFirstByHash : List FileRecord → List FileRecord
  | [] => []
  | f :: rest =>
      f :: keepFirstByHash (rest.filter (fun g => ¬ g.hash = f.hash))
termination_by files => files.length
decreasing_by
  simp only [List.length_cons]
  exact Nat.lt_succ_of_le (List.length_filter_le _ _)

def mkRec (h : String) : FileRecord :=
  { path := h, hash := h, size := 0, mtime := 0, duration := none,
    directory := "", filename := h, thumbnail_path := none }

/-- One row of `playlist_items` belonging to a fixed playlist. -/
structure PlaylistItem where
  media_url : String
  order_index : Int
  added_at : Nat
  thumbnail_path : Option String
deriving Repr, DecidableEq

/-- The query `SELECT MAX(order_index) … WHERE playlist_id = ?`, then
`(result?.max_order ?? -1) + 1` (`addToPlaylist`, lines 846–852). -/
def nextOrder (items : List PlaylistItem) : Int :=
  (items.foldl (fun m it => max m it.order_index) (-1)) + 1

/-- Embedding of `FileCache.addToPlaylist` (lines 846–873), restricted to its effect on
the playlist's own `playlist_items` rows.  `INSERT OR IGNORE` against
`UNIQUE(playlist_id, media_url)` drops the new row exactly when the URL is
already present.  `thumb` stands for the `generatePlaylistThumbnail`
result and `now` for the `added_at` default timestamp. -/
def addToPlaylist (items : List PlaylistItem) (mediaUrl : String)
    (thumb : Option String) (now : Nat) : List PlaylistItem :=
  if items.any (fun it => it.media_url = mediaUrl) then items
  else
    items ++ [{ media_url := mediaUrl, order_index := nextOrder items,
                added_at := now, thumbnail_path := thumb }]

/-- Embedding of `FileCache.removeFromPlaylist` (lines 892–919): look the row up, delete
it, then decrement `order_index` on every row with a larger index. -/
def removeFromPlaylist (items : List PlaylistItem) (mediaUrl : String) :
    List PlaylistItem :=
  match items.find? (fun it => it.media_url = mediaUrl) with
  | none => items
  | some item =>
      (items.filter (fun it => ¬ it.media_url = mediaUrl)).map
        (fun it =>
          if item.order_index < it.order_index
          then { it with order_index := it.order_index - 1 } else it)

/-- Embedding of `FileCache.reorderPlaylistItem` (lines 921–964): look the row up
(`return` when absent or when the index is unchanged), shift the rows
between the old and the new index, then set the moved row's index. -/
def reorderPlaylistItem (items : List PlaylistItem) (mediaUrl : String)
    (newIndex : Int) : List PlaylistItem :=
  match items.find? (fun it => it.media_url = mediaUrl) with
  | none => items
  | some item =>
      let oldIndex := item.order_index
      if oldIndex = newIndex then items
      else
        let shifted :=
          if oldIndex < newIndex then
            items.map (fun it =>
              if oldIndex < it.order_index ∧ it.order_index ≤ newIndex
              then { it with order_index := it.order_index - 1 } else it)
          else
            items.map (fun it =>
              if newIndex ≤ it.order_index ∧ it.order_index < oldIndex
              then { it with order_index := it.order_index + 1 } else it)
        shifted.map (fun it =>
          if it.media_url = mediaUrl
          then { it with order_index := newIndex } else it)

/-- Embedding of `FileCache.getPlaylistItems`:
`SELECT * … WHERE playlist_id = ? ORDER BY order_index ASC`. -/
def getPlaylistItems (items : List PlaylistItem) : List PlaylistItem :=
  items.insertionSort (fun a b => a.order_index ≤ b.order_index)

/-- The media URLs of a playlist are pairwise distinct
(`UNIQUE(playlist_id, media_url)`). -/
def urlsNodup (items : List PlaylistItem) : Prop :=
  (items.map (fun it => it.media_url)).Nodup

instance (items : List PlaylistItem) : Decidable (urlsNodup items) := by
  unfold urlsNodup; infer_instance

def itemA : PlaylistItem :=
  { media_url := "A", order_index := 0, added_at := 0, thumbnail_path := none }

def itemB : PlaylistItem :=
  { media_url := "B", order_index := 1, added_at := 0, thumbnail_path := none }

def itemC : PlaylistItem :=
  { media_url := "C", order_index := 2, added_at := 0, thumbnail_path := none }

def itemD : PlaylistItem :=
  { media_url := "D", order_index := 3, added_at := 0, thumbnail_path := none }

def itemsABCD : List PlaylistItem := [itemA, itemB, itemC, itemD]

/-! ## The contiguous-index invariant -/

/-- A single playlist mutation as invoked by the route layer: the three
item-level operations of `FileCache`. -/
inductive PlOp where
  | add (url : String) (thumb : Option String) (now : Nat)
  | remove (url : String)
  | move (url : String) (newIndex : Int)
deriving Repr, DecidableEq

def applyOp (items : List PlaylistItem) : PlOp → List PlaylistItem
  | PlOp.add url thumb now => addToPlaylist items url thumb now
  | PlOp.remove url => removeFromPlaylist items url
  | PlOp.move url j => reorderPlaylistItem items url j

def applyOps (items : List PlaylistItem) (ops : List PlOp) : List PlaylistItem :=
  ops.foldl applyOp items

def orderIndexes (items : List PlaylistItem) : List Int :=
  items.map (fun it => it.order_index)

/-- The list `[0, 1, …, n-1]` as integers. -/
def intRange (n : Nat) : List Int :=
  (List.range n).map (fun k : Nat => (k : Int))

/-- The spec's §3 invariant: the multiset of `order_index` values of a
playlist with `N` items is exactly `{0, …, N-1}`. -/
def contiguous (items : List PlaylistItem) : Prop :=
  ((orderIndexes items : List Int) : Multiset Int) =
    ((intRange items.length : List Int) : Multiset Int)

instance (items : List PlaylistItem) : Decidable (contiguous items) := by
  unfold contiguous; infer_instance

/-- Combined well-formedness maintained by the operations: distinct URLs
(the `UNIQUE(playlist_id, media_url)` constraint) and contiguous
indices. -/
def playlistWF (items : List PlaylistItem) : Prop :=
  urlsNodup items ∧ contiguous items

/-- Each `move` in the sequence targets an index inside `[0, N-1]` for the
playlist size `N` at the moment it runs. -/
def movesInRangeB : List PlaylistItem → List PlOp → Bool
  | _, [] => true
  | items, op :: rest =>
      (match op with
        | PlOp.move _ j => decide (0 ≤ j ∧ j < (items.length : Int))
        | _ => true) && movesInRangeB (applyOp items op) rest

/-- The per-row transformation performed by `reorderPlaylistItem` (the
function proved in `reorder_shift_map`), named for reuse. -/
def moveFun (i j : Int) (url : String) : PlaylistItem → PlaylistItem :=
  fun it =>
    if it.media_url = url then { it with order_index := j }
    else if i < j ∧ i < it.order_index ∧ it.order_index ≤ j then
      { it with order_index := it.order_index - 1 }
    else if j < i ∧ j ≤ it.order_index ∧ it.order_index < i then
      { it with order_index := it.order_index + 1 }
    else it

/-- The index-level shift applied by `reorderPlaylistItem` to the rows
other than the moved one. -/
def moveShift (i j : Int) : Int → Int :=
  fun x =>
    if i < j ∧ i < x ∧ x ≤ j then x - 1
    else if j < i ∧ j ≤ x ∧ x < i then x + 1
    else x

/-! ## Playlists table: the `updated_at` refresh of `addToPlaylist` -/

/-- One row of `playlists`. -/
structure Playlist where
  id : Nat
  name : String
  description : Option String
  created_at : Nat
  updated_at : Nat
deriving Repr, DecidableEq

/-- One row of `playlist_items` with its `playlist_id` column (full-table
view, needed for the cross-table effect of `addToPlaylist`). -/
structure PlaylistItemRow where
  playlist_id : Nat
  media_url : String
  order_index : Int
  added_at : Nat
  thumbnail_path : Option String
deriving Repr, DecidableEq

/-- Embedding of `FileCache.addToPlaylist` (lines 846–873) acting on the whole store:
`MAX(order_index) … WHERE playlist_id = ?`, then `INSERT OR IGNORE INTO
playlist_items` (dropped when `UNIQUE(playlist_id, media_url)` is
violated), then — unconditionally, also when the insert was ignored —
`UPDATE playlists SET updated_at = strftime(now) WHERE id = ?`.  `thumb`
stands for the `generatePlaylistThumbnail` result. -/
def addToPlaylistDb (pls : List Playlist) (rows : List PlaylistItemRow)
    (pid : Nat) (mediaUrl : String) (thumb : Option String) (now : Nat) :
    List Playlist × List PlaylistItemRow :=
  let mine := rows.filter (fun r => r.playlist_id = pid)
  let nextOrd := (mine.foldl (fun m r => max m r.order_index) (-1)) + 1
  let rows' :=
    if rows.any (fun r => r.playlist_id = pid ∧ r.media_url = mediaUrl) then rows
    else rows ++ [{ playlist_id := pid, media_url := mediaUrl,
                    order_index := nextOrd, added_at := now,
                    thumbnail_path := thumb }]
  let pls' := pls.map (fun p => if p.id = pid then { p with updated_at := now } else p)
  (pls', rows')

/-! ## History: the upsert against `UNIQUE(type, value, platform, service)` -/

/-- One row of `history`.  `platform` and `service` are nullable columns
(`none` = SQL `NULL`). -/
structure HistoryRow where
  typ : String
  value : String
  platform : Option String
  service : Option String
  last_used : Nat
  use_count : Nat
deriving Repr, DecidableEq

/-- Equality of a nullable column as a SQLite UNIQUE index sees it:
`NULL` is distinct from every value *including another `NULL`* ("For the
purposes of unique indices, all NULL values are considered different from
all other NULL values" — SQLite documentation), so only two non-NULL
equal values collide. -/
def sqlEq : Option String → Option String → Prop
  | some a, some b => a = b
  | _, _ => False

instance (a b : Option String) : Decidable (sqlEq a b) := by
  cases a with
  | none => exact inferInstanceAs (Decidable False)
  | some x =>
      cases b with
      | none => exact inferInstanceAs (Decidable False)
      | some y => exact inferInstanceAs (Decidable (x = y))

/-- The `INSERT … ON CONFLICT(type, value, platform, service) DO UPDATE
SET last_used = strftime(now), use_count = use_count + 1` shared by all
four history writers.  The `DO UPDATE` branch runs only when the new row
would actually violate the UNIQUE index — with a NULL `platform` or
`service` it never does. -/
def historyUpsert (db : List HistoryRow) (typ value : String)
    (platform service : Option String) (now : Nat) : List HistoryRow :=
  if db.any (fun r => r.typ = typ ∧ r.value = value ∧
      sqlEq r.platform platform ∧ sqlEq r.service service) then
    db.map (fun r =>
      if r.typ = typ ∧ r.value = value ∧
          sqlEq r.platform platform ∧ sqlEq r.service service
      then { r with last_used := now, use_count := r.use_count + 1 } else r)
  else
    db ++ [{ typ := typ, value := value, platform := platform,
             service := service, last_used := now, use_count := 1 }]

/-- Embedding of `FileCache.addDirectoryToHistory` (lines 470–480): the INSERT names
only `(type, value, last_used, use_count)`, so `platform` and `service`
take their NULL defaults. -/
def addDirectoryToHistory (db : List HistoryRow) (path : String) (now : Nat) :
    List HistoryRow :=
  historyUpsert db "directory" path none none now

/-- Embedding of `FileCache.addUserToHistory` (lines 485–494): here `platform` and
`service` are bound to the (non-NULL) string arguments. -/
def addUserToHistory (db : List HistoryRow) (userId platform service : String)
    (now : Nat) : List HistoryRow :=
  historyUpsert db "user" userId (some platform) (some service) now

/-- Recognized video extensions for hashing and thumbnail generation
(`fileCache.server.ts`, `hashFile` and `generateThumbnail`). -/
def videoExtensions : List String :=
  [".mp4", ".webm", ".mov", ".avi", ".mkv", ".m4v", ".3gp", ".flv", ".ogv"]

/-- The (shorter) extension list used for duration probing inside
`getOrCreateFileRecord`. -/
def durationExtensions : List String :=
  [".mp4", ".webm", ".mov", ".avi", ".mkv"]

/-- Split a character list at every occurrence of `c` (the semantics of
`String.split` used by path handling, written over `List Char` so that
concrete inputs evaluate). -/
def splitOnChar (c : Char) : List Char → List (List Char)
  | [] => [[]]
  | x :: xs =>
      match splitOnChar c xs with
      | [] => [[x]]
      | y :: ys => if x = c then [] :: y :: ys else (x :: y) :: ys

/-- ASCII lower-casing of one character (`toLowerCase` on extension
characters). -/
def lowerChar (ch : Char) : Char :=
  if 'A' ≤ ch ∧ ch ≤ 'Z' then Char.ofNat (ch.toNat + 32) else ch

/-- Embedding of `path.extname(p).toLowerCase()`: the suffix from the last dot of the
basename (empty for dotless names and for dotfiles like `.bashrc`),
lowercased. -/
def extnameLower (p : String) : String :=
  let base := match (splitOnChar '/' p.data).getLast? with
    | some b => b
    | none => p.data
  let parts := splitOnChar '.' base
  match parts with
  | [] => ""
  | [_] => ""
  | [] :: [_] => ""
  | _ =>
      match parts.getLast? with
      | some e => String.mk ('.' :: e.map lowerChar)
      | none => ""

def videoExt (p : String) : Bool := videoExtensions.contains (extnameLower p)

def durationExt (p : String) : Bool := durationExtensions.contains (extnameLower p)

/-- Embedding of `path.basename`. -/
def basename (p : String) : String :=
  match (splitOnChar '/' p.data).getLast? with
  | some b => String.mk b
  | none => p

def joinSlash : List (List Char) → List Char
  | [] => []
  | [x] => x
  | x :: xs => x ++ '/' :: joinSlash xs

/-- Embedding of `path.dirname`. -/
def dirname (p : String) : String :=
  String.mk (joinSlash ((splitOnChar '/' p.data).dropLast))

/-- Externally observable work: a `hashFile` invocation (itself spawning
ffmpeg / streaming the file), a duration probe, or one ffmpeg frame
extraction at a seek offset in seconds. -/
inductive Eff where
  | hashEff (path : String)
  | durationEff (path : String)
  | spawnEff (path : String) (seekSeconds : Nat)
deriving Repr, DecidableEq

/-- The `fs.stat` result fields the cache consumes. -/
structure Stat where
  size : Nat
  mtime : Nat
deriving Repr, DecidableEq

/-- Oracles for the outside world: `path.resolve`, `fs.stat` (`none` =
throws / file vanished), the digest `hashFile` would return, whether
frame extraction at `(path, seek)` exits 0, and the duration probe
(`none` = probe throws). -/
structure Env where
  resolvePath : String → String
  statOf : String → Option Stat
  hashOf : String → String
  extractOk : String → Nat → Bool
  durationOf : String → Option Nat

/-- Mutable filesystem state outside the database: the thumbnail files
(named `hash.jpg`) existing under `public/thumbnails`. -/
structure World where
  thumbFiles : List String
deriving Repr, DecidableEq

/-- Thumbnail file name, derived solely from the hash. -/
def thumbName (hash : String) : String := hash ++ ".jpg"

/-- Public reference returned to callers, derived solely from the hash. -/
def thumbRef (hash : String) : String := "/thumbnails/" ++ hash ++ ".jpg"

/-- Embedding of `FileCache.generateThumbnail` (lines 206–282).  Not a video → `null`.
Thumbnail file already present → return the public reference without
spawning.  Otherwise attempt extraction at 5 s (a success writes the file
and exits 0, and the reference is returned); on failure retry at 2 s and —
when that also fails and nothing was written — at 1 s; after the retries
the function falls through to `return null` even when a retry wrote the
thumbnail. -/
def generateThumbnail (env : Env) (w : World) (filePath hash : String) :
    Option String × World × List Eff :=
  if ¬ videoExt filePath then (none, w, [])
  else if w.thumbFiles.contains (thumbName hash) then
    (some (thumbRef hash), w, [])
  else if env.extractOk filePath 5 then
    (some (thumbRef hash), ⟨thumbName hash :: w.thumbFiles⟩,
      [Eff.spawnEff filePath 5])
  else if env.extractOk filePath 2 then
    (none, ⟨thumbName hash :: w.thumbFiles⟩,
      [Eff.spawnEff filePath 5, Eff.spawnEff filePath 2])
  else if env.extractOk filePath 1 then
    (none, ⟨thumbName hash :: w.thumbFiles⟩,
      [Eff.spawnEff filePath 5, Eff.spawnEff filePath 2, Eff.spawnEff filePath 1])
  else
    (none, w,
      [Eff.spawnEff filePath 5, Eff.spawnEff filePath 2, Eff.spawnEff filePath 1])

/-- Embedding of `FileCache.getCachedRecord` (lines 288–294): one `SELECT * FROM files
WHERE path = ?` on the resolved path.  No stat, no hashing, no spawn —
the effect list is empty and the result only reads `env.resolvePath`. -/
def getCachedRecord (env : Env) (db : List FileRecord) (filePath : String) :
    Option FileRecord × List Eff :=
  (db.find? (fun r => r.path = env.resolvePath filePath), [])

/-- Embedding of `FileCache.getOrCreateFileRecord` (lines 299–368).  `none` = the
initial `stat` threw (file not found propagates).  Fast path: a stored
record with matching `(size, mtime)` is returned — after backfilling a
missing thumbnail (which can spawn ffmpeg) — without hashing.  Slow path:
hash, probe duration for the shorter extension list, generate the
thumbnail, then `UPDATE` the existing row or `INSERT` a new one. -/
def getOrCreateFileRecord (env : Env) (w : World) (db : List FileRecord)
    (filePath : String) :
    Option (FileRecord × List FileRecord × World × List Eff) :=
  let p := env.resolvePath filePath
  match env.statOf p with
  | none => none
  | some st =>
      match db.find? (fun r => r.path = p) with
      | some existing =>
          if existing.mtime = st.mtime ∧ existing.size = st.size then
            match existing.thumbnail_path with
            | none =>
                let res := generateThumbnail env w p existing.hash
                match res.1 with
                | some t =>
                    some ({ existing with thumbnail_path := some t },
                      db.map (fun r => if r.path = p
                        then { r with thumbnail_path := some t } else r),
                      res.2.1, res.2.2)
                | none => some (existing, db, res.2.1, res.2.2)
            | some _ => some (existing, db, w, [])
          else
            let hash := env.hashOf p
            let dur := if durationExt p then env.durationOf p else none
            let durEffs := if durationExt p then [Eff.durationEff p] else []
            let tres := generateThumbnail env w p hash
            some ({ path := p, hash := hash, size := st.size, mtime := st.mtime,
                    duration := dur, directory := dirname p,
                    filename := basename p, thumbnail_path := tres.1 },
              db.map (fun r =>
                if r.path = p then
                  { r with
                    hash := hash, size := st.size, mtime := st.mtime,
                    duration := dur, thumbnail_path := tres.1 }
                else r),
              tres.2.1, Eff.hashEff p :: durEffs ++ tres.2.2)
      | none =>
          let hash := env.hashOf p
          let dur := if durationExt p then env.durationOf p else none
          let durEffs := if durationExt p then [Eff.durationEff p] else []
          let tres := generateThumbnail env w p hash
          let newRec : FileRecord :=
            { path := p, hash := hash, size := st.size, mtime := st.mtime,
              duration := dur, directory := dirname p,
              filename := basename p, thumbnail_path := tres.1 }
          some (newRec, db ++ [newRec], tres.2.1,
            Eff.hashEff p :: durEffs ++ tres.2.2)

def envRetry2 : Env :=
  { resolvePath := fun p => p, statOf := fun _ => none,
    hashOf := fun _ => "h", extractOk := fun _ t => t == 2,
    durationOf := fun _ => none }

def recThumb : FileRecord :=
  { path := "/a/v.mp4", hash := "h", size := 100, mtime := 5,
    duration := some 30, directory := "/a", filename := "v.mp4",
    thumbnail_path := some "/thumbnails/h.jpg" }

/-- An environment in which the file has different stat values than the
stored record (the file changed on disk). -/
def envChanged : Env :=
  { resolvePath := fun p => p, statOf := fun _ => some ⟨999, 777⟩,
    hashOf := fun _ => "h2", extractOk := fun _ _ => true,
    durationOf := fun _ => none }

/-- An environment in which the file no longer exists at all. -/
def envGone : Env :=
  { resolvePath := fun p => p, statOf := fun _ => none,
    hashOf := fun _ => "h2", extractOk := fun _ _ => true,
    durationOf := fun _ => none }

def envExtractAll : Env :=
  { resolvePath := fun p => p, statOf := fun _ => some ⟨100, 5⟩,
    hashOf := fun _ => "h", extractOk := fun _ _ => true,
    durationOf := fun _ => none }

def recNoThumb : FileRecord :=
  { path := "/a/v.mp4", hash := "h", size := 100, mtime := 5,
    duration := some 30, directory := "/a", filename := "v.mp4",
    thumbnail_path := none }

theorem keepFirstByHash_nil : keepFirstByHash [] = [] := by
  simp [keepFirstByHash]

theorem keepFirstByHash_cons (f : FileRecord) (rest : List FileRecord) :
    keepFirstByHash (f :: rest) =
      f :: keepFirstByHash (rest.filter (fun g => ¬ g.hash = f.hash)) := by
  simp [keepFirstByHash]

/-- Running `dedupLoop` with accumulated seen-set `seen` is `keepFirstByHash` of
the input with all already-seen hashes filtered away. -/
theorem dedupLoop_eq_keepFirst (files : List FileRecord) :
    ∀ seen : List String,
      dedupLoop files seen =
        keepFirstByHash (files.filter (fun g => !(seen.contains g.hash))) := by
  induction files with
  | nil => intro seen; simp [dedupLoop, keepFirstByHash_nil]
  | cons f rest ih =>
      intro seen
      by_cases h : f.hash ∈ seen
      · have h1 : dedupLoop (f :: rest) seen = dedupLoop rest seen := by
          simp [dedupLoop, h]
        have h2 : (f :: rest).filter (fun g => !(seen.contains g.hash)) =
            rest.filter (fun g => !(seen.contains g.hash)) :=
          List.filter_cons_of_neg (by simp [h])
        rw [h1, h2, ih]
      · have h1 : dedupLoop (f :: rest) seen = f :: dedupLoop rest (f.hash :: seen) := by
          simp [dedupLoop, h]
        have h2 : (f :: rest).filter (fun g => !(seen.contains g.hash)) =
            f :: rest.filter (fun g => !(seen.contains g.hash)) :=
          List.filter_cons_of_pos (by simp [h])
        have hfilt : rest.filter (fun g => !((f.hash :: seen).contains g.hash)) =
            (rest.filter (fun g => !(seen.contains g.hash))).filter
              (fun g => ¬ g.hash = f.hash) := by
          rw [List.filter_filter]
          refine List.filter_congr (fun a _ => ?_)
          by_cases haf : a.hash = f.hash <;> by_cases has : a.hash ∈ seen <;>
            simp [haf, has]
        rw [h1, h2, keepFirstByHash_cons, ih, hfilt]

/-- The function `deduplicateFiles` computes exactly the spec's first-occurrence
dedup. -/
theorem deduplicateFiles_eq_keepFirst (files : List FileRecord) :
    deduplicateFiles files = keepFirstByHash files := by
  have h := dedupLoop_eq_keepFirst files []
  have h2 : files.filter (fun g => !(([] : List String).contains g.hash)) = files := by
    simp
  rw [deduplicateFiles, h, h2]

/-- The spec-side dedup is a sublist of its input (hence it preserves the
relative order of surviving records). -/
theorem keepFirstByHash_sublist (files : List FileRecord) :
    (keepFirstByHash files).Sublist files := by
  have key : ∀ (n : Nat) (l : List FileRecord), l.length ≤ n →
      (keepFirstByHash l).Sublist l := by
    intro n
    induction n with
    | zero =>
        intro l hl
        cases l with
        | nil => simp [keepFirstByHash_nil]
        | cons f rest => simp at hl
    | succ n ih =>
        intro l hl
        cases l with
        | nil => simp [keepFirstByHash_nil]
        | cons f rest =>
            rw [keepFirstByHash_cons]
            refine List.Sublist.cons₂ f ?_
            have hle : (rest.filter (fun g => decide (¬ g.hash = f.hash))).length ≤ n :=
              le_trans (List.length_filter_le _ _)
                (Nat.le_of_succ_le_succ (by simpa using hl))
            exact (ih _ hle).trans (List.filter_sublist rest)
  exact key files.length files le_rfl

/-- Within the dedup output, the records carrying a fixed hash value `h`
are exactly the first input record carrying `h` (if any): per-hash groups
keep only their first occurrence. -/
theorem keepFirst_filter_hash (h : String) (files : List FileRecord) :
    (keepFirstByHash files).filter (fun g => g.hash = h) =
      (files.filter (fun g => g.hash = h)).take 1 := by
  have key : ∀ (n : Nat) (l : List FileRecord), l.length ≤ n →
      (keepFirstByHash l).filter (fun g => g.hash = h) =
        (l.filter (fun g => g.hash = h)).take 1 := by
    intro n
    induction n with
    | zero =>
        intro l hl
        cases l with
        | nil => simp [keepFirstByHash_nil]
        | cons f rest => simp at hl
    | succ n ih =>
        intro l hl
        cases l with
        | nil => simp [keepFirstByHash_nil]
        | cons f rest =>
            rw [keepFirstByHash_cons]
            by_cases hf : f.hash = h
            · rw [List.filter_cons_of_pos (by simp [hf]),
                List.filter_cons_of_pos (by simp [hf])]
              have hnone :
                  (keepFirstByHash (rest.filter (fun g => ¬ g.hash = f.hash))).filter
                    (fun g => g.hash = h) = [] := by
                rw [List.filter_eq_nil_iff]
                intro a ha
                have hmem : a ∈ rest.filter (fun g => ¬ g.hash = f.hash) :=
                  (keepFirstByHash_sublist _).mem ha
                have hne := (List.mem_filter.mp hmem).2
                simp only [decide_eq_true_eq] at hne ⊢
                rw [hf] at hne
                exact hne
              rw [hnone]
              simp
            · rw [List.filter_cons_of_neg (by simp [hf]),
                List.filter_cons_of_neg (by simp [hf])]
              rw [ih _ (le_trans (List.length_filter_le _ _)
                (Nat.le_of_succ_le_succ (by simpa using hl)))]
              congr 1
              rw [List.filter_filter]
              refine List.filter_congr (fun a _ => ?_)
              by_cases haf : a.hash = h
              · have hne : ¬ a.hash = f.hash := by
                  rw [haf]; intro he; exact hf he.symm
                have hne2 : ¬ h = f.hash := fun he => hf he.symm
                simp [haf, hne, hne2]
              · simp [haf]
  exact key files.length files le_rfl

/-- C5: `dedupe` keeps, for each distinct hash, only the first record in
input order, the survivors appear in input order (sublist), and on records
with hashes `[a, b, a, c, b]` it returns the records with hashes
`[a, b, c]` in that order. -/
theorem dedupe_stable_keeps_first :
    (∀ files : List FileRecord,
        deduplicateFiles files = keepFirstByHash files ∧
        (deduplicateFiles files).Sublist files) ∧
      (deduplicateFiles
          [mkRec "a", mkRec "b", { mkRec "a" with path := "a2" },
            mkRec "c", { mkRec "b" with path := "b2" }]).map (fun f => f.hash)
        = ["a", "b", "c"] := by
  refine ⟨fun files => ⟨deduplicateFiles_eq_keepFirst files, ?_⟩, by decide⟩
  rw [deduplicateFiles_eq_keepFirst]
  exact keepFirstByHash_sublist files

/-- C6: records carrying the placeholder empty hash all collide under
dedup — within the output, the empty-hash records are exactly the first
empty-hash record of the input (so with two or more present, every later
one is removed); in particular two placeholder records with hashes
`["", "x", ""]` dedup to the first two. -/
theorem dedupe_empty_hash_records_collide :
    (∀ files : List FileRecord,
        (deduplicateFiles files).filter (fun g => g.hash = "") =
          (files.filter (fun g => g.hash = "")).take 1) ∧
      deduplicateFiles [mkRec "", mkRec "x", { mkRec "" with path := "p2" }]
        = [mkRec "", mkRec "x"] := by
  refine ⟨fun files => ?_, by decide⟩
  rw [deduplicateFiles_eq_keepFirst]
  exact keepFirst_filter_hash "" files

/-- With distinct URLs, `query.get` (first matching row) finds exactly the
member carrying the URL. -/
theorem find?_eq_of_urlsNodup {items : List PlaylistItem}
    {item : PlaylistItem} {url : String} (hnd : urlsNodup items)
    (hmem : item ∈ items) (hurl : item.media_url = url) :
    items.find? (fun it => it.media_url = url) = some item := by
  induction items with
  | nil => cases hmem
  | cons a rest ih =>
      rcases List.mem_cons.mp hmem with rfl | hmem2
      · rw [List.find?_cons_of_pos _ (by simp [hurl])]
      · have hand : ¬ a.media_url = url := by
          intro hau
          have : a.media_url ∈ rest.map (fun it => it.media_url) := by
            refine List.mem_map.mpr ⟨item, hmem2, ?_⟩
            rw [hurl, hau]
          exact (List.nodup_cons.mp hnd).1 this
        rw [List.find?_cons_of_neg _ (by simp [hand])]
        exact ih (List.nodup_cons.mp hnd).2 hmem2

/-- Two rows of a distinct-URL playlist with the same URL are the same
row. -/
theorem eq_of_urlsNodup {items : List PlaylistItem}
    {x y : PlaylistItem} (hnd : urlsNodup items) (hx : x ∈ items)
    (hy : y ∈ items) (hxy : x.media_url = y.media_url) : x = y :=
  List.inj_on_of_nodup_map hnd hx hy hxy

theorem setOrder_media_url (it : PlaylistItem) (x : Int) :
    ({ it with order_index := x }).media_url = it.media_url := rfl

theorem setOrder_order (it : PlaylistItem) (x : Int) :
    ({ it with order_index := x }).order_index = x := rfl

theorem setOrder_self (it : PlaylistItem) :
    ({ it with order_index := it.order_index }) = it := rfl

/-- General form of the reorder algorithm: with distinct URLs and the
moved row `item` present, every row is transformed by the §4.6
shift/assignment pattern (moved row gets `j`; for `i < j` the rows in
`(i, j]` shift down; for `i > j` the rows in `[j, i)` shift up; `i = j`
leaves everything unchanged). -/
theorem reorder_shift_map
    (items : List PlaylistItem) (item : PlaylistItem) (url : String) (j : Int)
    (hnd : urlsNodup items) (hmem : item ∈ items) (hurl : item.media_url = url) :
    reorderPlaylistItem items url j =
      items.map (fun it =>
        if it.media_url = url then { it with order_index := j }
        else if item.order_index < j ∧ item.order_index < it.order_index ∧
            it.order_index ≤ j then
          { it with order_index := it.order_index - 1 }
        else if j < item.order_index ∧ j ≤ it.order_index ∧
            it.order_index < item.order_index then
          { it with order_index := it.order_index + 1 }
        else it) := by
  have hf := find?_eq_of_urlsNodup hnd hmem hurl
  by_cases hij : item.order_index = j
  · have hr : reorderPlaylistItem items url j = items := by
      simp only [reorderPlaylistItem, hf, if_pos hij]
    rw [hr]
    symm
    have hpt : ∀ it ∈ items,
        (if it.media_url = url then { it with order_index := j }
         else if item.order_index < j ∧ item.order_index < it.order_index ∧
            it.order_index ≤ j then
          { it with order_index := it.order_index - 1 }
         else if j < item.order_index ∧ j ≤ it.order_index ∧
            it.order_index < item.order_index then
          { it with order_index := it.order_index + 1 }
         else it) = (fun a => a) it := by
      intro it hit
      by_cases hu : it.media_url = url
      · have he : it = item := eq_of_urlsNodup hnd hit hmem (by rw [hu, hurl])
        have hjo : j = it.order_index := by rw [he, hij]
        rw [if_pos hu, hjo, setOrder_self]
      · have hc1 : ¬ (item.order_index < j ∧ item.order_index < it.order_index ∧
            it.order_index ≤ j) := by omega
        have hc2 : ¬ (j < item.order_index ∧ j ≤ it.order_index ∧
            it.order_index < item.order_index) := by omega
        rw [if_neg hu, if_neg hc1, if_neg hc2]
    rw [List.map_congr_left hpt, List.map_id']
  · by_cases hlt : item.order_index < j
    · have hred : reorderPlaylistItem items url j =
          (items.map (fun it =>
            if item.order_index < it.order_index ∧ it.order_index ≤ j
            then { it with order_index := it.order_index - 1 } else it)).map
          (fun it => if it.media_url = url
            then { it with order_index := j } else it) := by
        simp only [reorderPlaylistItem, hf, if_neg hij, if_pos hlt]
      rw [hred, List.map_map]
      refine List.map_congr_left (fun it hit => ?_)
      by_cases hu : it.media_url = url
      · have he : it = item := eq_of_urlsNodup hnd hit hmem (by rw [hu, hurl])
        have hsh : ¬ (item.order_index < it.order_index ∧ it.order_index ≤ j) := by
          rw [he]; omega
        simp only [Function.comp_apply, if_neg hsh, if_pos hu]
      · by_cases hb : item.order_index < it.order_index ∧ it.order_index ≤ j
        · simp only [Function.comp_apply, if_pos hb, setOrder_media_url,
            if_neg hu, if_pos (And.intro hlt (And.intro hb.1 hb.2))]
        · have hc2 : ¬ (item.order_index < j ∧ item.order_index < it.order_index ∧
              it.order_index ≤ j) := by omega
          have hc3 : ¬ (j < item.order_index ∧ j ≤ it.order_index ∧
              it.order_index < item.order_index) := by omega
          simp only [Function.comp_apply, if_neg hb, if_neg hu, if_neg hc2, if_neg hc3]
    · have hgt : j < item.order_index :=
        lt_of_le_of_ne (not_lt.mp hlt) (fun he => hij he.symm)
      have hred : reorderPlaylistItem items url j =
          (items.map (fun it =>
            if j ≤ it.order_index ∧ it.order_index < item.order_index
            then { it with order_index := it.order_index + 1 } else it)).map
          (fun it => if it.media_url = url
            then { it with order_index := j } else it) := by
        simp only [reorderPlaylistItem, hf, if_neg hij, if_neg hlt]
      rw [hred, List.map_map]
      refine List.map_congr_left (fun it hit => ?_)
      by_cases hu : it.media_url = url
      · have he : it = item := eq_of_urlsNodup hnd hit hmem (by rw [hu, hurl])
        have hsh : ¬ (j ≤ it.order_index ∧ it.order_index < item.order_index) := by
          rw [he]; omega
        simp only [Function.comp_apply, if_neg hsh, if_pos hu]
      · by_cases hb : j ≤ it.order_index ∧ it.order_index < item.order_index
        · have hc2 : ¬ (item.order_index < j ∧ item.order_index < it.order_index ∧
              it.order_index ≤ j) := by omega
          simp only [Function.comp_apply, if_pos hb, setOrder_media_url,
            if_neg hu, if_neg hc2, if_pos (And.intro hgt (And.intro hb.1 hb.2))]
        · have hc2 : ¬ (item.order_index < j ∧ item.order_index < it.order_index ∧
              it.order_index ≤ j) := by omega
          have hc3 : ¬ (j < item.order_index ∧ j ≤ it.order_index ∧
              it.order_index < item.order_index) := by omega
          simp only [Function.comp_apply, if_neg hb, if_neg hu, if_neg hc2, if_neg hc3]

/-- C4: moving an item from index `i` to `j` shifts `[j, i)` up by one
when `i > j`, shifts `(i, j]` down by one when `i < j`, is a no-op when
`i = j`, and gives the moved item index `j`; in particular moving `D`
(index 3) of `A,B,C,D` to index 1 yields the order `A, D, B, C`. -/
theorem playlist_move_correct :
    (∀ (items : List PlaylistItem) (item : PlaylistItem) (url : String) (j : Int),
        urlsNodup items → item ∈ items → item.media_url = url →
        reorderPlaylistItem items url j =
          items.map (fun it =>
            if it.media_url = url then { it with order_index := j }
            else if item.order_index < j ∧ item.order_index < it.order_index ∧
                it.order_index ≤ j then
              { it with order_index := it.order_index - 1 }
            else if j < item.order_index ∧ j ≤ it.order_index ∧
                it.order_index < item.order_index then
              { it with order_index := it.order_index + 1 }
            else it)) ∧
      getPlaylistItems (reorderPlaylistItem itemsABCD "D" 1) =
        [itemA, { itemD with order_index := 1 },
          { itemB with order_index := 2 }, { itemC with order_index := 3 }] := by
  refine ⟨fun items item url j hnd hmem hurl =>
    reorder_shift_map items item url j hnd hmem hurl, by decide⟩

theorem playlist_move_correct_witness :
    (urlsNodup itemsABCD ∧ itemD ∈ itemsABCD ∧ itemD.media_url = "D") ∧
      reorderPlaylistItem itemsABCD "D" 1 =
        itemsABCD.map (fun it =>
          if it.media_url = "D" then { it with order_index := 1 }
          else if itemD.order_index < 1 ∧ itemD.order_index < it.order_index ∧
              it.order_index ≤ 1 then
            { it with order_index := it.order_index - 1 }
          else if 1 < itemD.order_index ∧ 1 ≤ it.order_index ∧
              it.order_index < itemD.order_index then
            { it with order_index := it.order_index + 1 }
          else it) :=
  ⟨⟨by decide, by decide, rfl⟩,
    playlist_move_correct.1 itemsABCD itemD "D" 1 (by decide) (by decide) rfl⟩

/-! ### Arithmetic facts about `intRange` -/

theorem intRange_succ (n : Nat) :
    intRange (n + 1) = intRange n ++ [(n : Int)] := by
  unfold intRange
  rw [List.range_succ, List.map_append]
  rfl

theorem mem_intRange_iff {x : Int} {n : Nat} :
    x ∈ intRange n ↔ 0 ≤ x ∧ x < (n : Int) := by
  unfold intRange
  constructor
  · intro h
    obtain ⟨k, hk, rfl⟩ := List.mem_map.mp h
    have := List.mem_range.mp hk
    omega
  · intro h
    refine List.mem_map.mpr ⟨x.toNat, List.mem_range.mpr (by omega), by omega⟩

theorem coe_not_mem_intRange_self (n : Nat) : ((n : Int)) ∉ intRange n := by
  intro h
  have := mem_intRange_iff.mp h
  omega

theorem map_range_congr (f g : Nat → Int) (m : Nat)
    (h : ∀ k, k < m → f k = g k) :
    (List.range m).map f = (List.range m).map g :=
  List.map_congr_left (fun k hk => h k (List.mem_range.mp hk))

theorem map_intRange_id (f : Int → Int) (a : Nat)
    (h : ∀ x : Int, 0 ≤ x → x < (a : Int) → f x = x) :
    (intRange a).map f = intRange a := by
  have h1 : (intRange a).map f = (intRange a).map (fun x => x) :=
    List.map_congr_left (fun x hx => by
      have := mem_intRange_iff.mp hx
      exact h x this.1 this.2)
  rw [h1, List.map_id']

theorem intRange_glue (a m : Nat) :
    intRange a ++ (List.range m).map (fun k => ((a + k : Nat) : Int)) =
      intRange (a + m) := by
  unfold intRange
  rw [List.range_add, List.map_append, List.map_map]
  rfl

theorem intRange_erase_decomp (a m : Nat) :
    (intRange (a + 1 + m)).erase ((a : Nat) : Int) =
      intRange a ++ (List.range m).map (fun k => ((a + 1 + k : Nat) : Int)) := by
  have h1 : intRange (a + 1 + m) =
      intRange a ++ ([((a : Nat) : Int)] ++
        (List.range m).map (fun k => ((a + 1 + k : Nat) : Int))) := by
    unfold intRange
    rw [List.range_add, List.map_append, List.range_succ, List.map_append,
      List.map_map, List.append_assoc]
    rfl
  rw [h1, List.erase_append_right _ (coe_not_mem_intRange_self a),
    List.singleton_append, List.erase_cons_head]

theorem intRange_erase_last (M : Nat) :
    (intRange (M + 1)).erase ((M : Nat) : Int) = intRange M := by
  rw [intRange_succ, List.erase_append_right _ (coe_not_mem_intRange_self M),
    List.erase_cons_head, List.append_nil]

/-- Removing index `a` and shifting `(a, b]` down by one turns
`{0,…,N-1} \ {a}` into `{0,…,N-1} \ {b}` (`a < b < N`). -/
theorem erase_shift_down {N a b : Nat} (hab : a < b) (hbN : b < N) :
    ((intRange N).erase ((a : Nat) : Int)).map
      (fun x => if (a : Int) < x ∧ x ≤ (b : Int) then x - 1 else x)
      = (intRange N).erase ((b : Nat) : Int) := by
  obtain ⟨d, hd⟩ : ∃ d, b = a + 1 + d := ⟨b - a - 1, by omega⟩
  obtain ⟨mb, hmb⟩ : ∃ mb, N = b + 1 + mb := ⟨N - b - 1, by omega⟩
  obtain ⟨ma, hma⟩ : ∃ ma, N = a + 1 + ma := ⟨N - a - 1, by omega⟩
  have hmad : ma = (d + 1) + mb := by omega
  rw [hma, intRange_erase_decomp a ma, List.map_append]
  have h1 : (intRange a).map
      (fun x => if (a : Int) < x ∧ x ≤ (b : Int) then x - 1 else x) = intRange a :=
    map_intRange_id _ a (fun x h0 hlt => if_neg (by omega))
  rw [h1, hmad, List.range_add, List.map_append, List.map_append,
    List.map_map, List.map_map, List.map_map]
  have h2 : (List.range (d + 1)).map
      ((fun x => if (a : Int) < x ∧ x ≤ (b : Int) then x - 1 else x) ∘
        (fun k => ((a + 1 + k : Nat) : Int))) =
      (List.range (d + 1)).map (fun k => ((a + k : Nat) : Int)) := by
    refine map_range_congr _ _ _ (fun k hk => ?_)
    simp only [Function.comp_apply]
    rw [if_pos (by constructor <;> (push_cast; omega))]
    push_cast
    omega
  have h3 : (List.range mb).map
      (((fun x => if (a : Int) < x ∧ x ≤ (b : Int) then x - 1 else x) ∘
        (fun k => ((a + 1 + k : Nat) : Int))) ∘ (fun x => d + 1 + x)) =
      (List.range mb).map (fun k => ((b + 1 + k : Nat) : Int)) := by
    refine map_range_congr _ _ _ (fun k hk => ?_)
    simp only [Function.comp_apply]
    rw [if_neg (by push_cast; omega)]
    push_cast
    omega
  rw [h2, h3, ← List.append_assoc, intRange_glue,
    show a + (d + 1) = b from by omega, ← intRange_erase_decomp b mb, ← hmb,
    show a + 1 + (d + 1 + mb) = N from by omega]

/-- Removing index `b` and shifting `[a, b)` up by one turns
`{0,…,N-1} \ {b}` into `{0,…,N-1} \ {a}` (`a < b < N`). -/
theorem erase_shift_up {N a b : Nat} (hab : a < b) (hbN : b < N) :
    ((intRange N).erase ((b : Nat) : Int)).map
      (fun x => if (a : Int) ≤ x ∧ x < (b : Int) then x + 1 else x)
      = (intRange N).erase ((a : Nat) : Int) := by
  obtain ⟨mb, hmb⟩ : ∃ mb, N = b + 1 + mb := ⟨N - b - 1, by omega⟩
  obtain ⟨e, he⟩ : ∃ e, b = a + e := ⟨b - a, by omega⟩
  have he1 : 1 ≤ e := by omega
  have hbdec : intRange b =
      intRange a ++ (List.range e).map (fun k => ((a + k : Nat) : Int)) := by
    rw [intRange_glue, ← he]
  rw [hmb, intRange_erase_decomp b mb, hbdec, List.map_append, List.map_append,
    List.map_map, List.map_map]
  have h0 : (intRange a).map
      (fun x => if (a : Int) ≤ x ∧ x < (b : Int) then x + 1 else x) = intRange a :=
    map_intRange_id _ a (fun x hx0 hxa => if_neg (by omega))
  have h1 : (List.range e).map
      ((fun x => if (a : Int) ≤ x ∧ x < (b : Int) then x + 1 else x) ∘
        (fun k => ((a + k : Nat) : Int))) =
      (List.range e).map (fun k => ((a + 1 + k : Nat) : Int)) := by
    refine map_range_congr _ _ _ (fun k hk => ?_)
    simp only [Function.comp_apply]
    rw [if_pos (by constructor <;> (push_cast; omega))]
    push_cast
    omega
  have h2 : (List.range mb).map
      ((fun x => if (a : Int) ≤ x ∧ x < (b : Int) then x + 1 else x) ∘
        (fun k => ((b + 1 + k : Nat) : Int))) =
      (List.range mb).map (fun k => ((b + 1 + k : Nat) : Int)) := by
    refine map_range_congr _ _ _ (fun k hk => ?_)
    simp only [Function.comp_apply]
    rw [if_neg (by push_cast; omega)]
  rw [h0, h1, h2,
    show b + 1 + mb = a + 1 + (e + mb) from by omega,
    intRange_erase_decomp a (e + mb), List.range_add, List.map_append,
    List.map_map]
  have h3 : (List.range mb).map
      ((fun k => ((a + 1 + k : Nat) : Int)) ∘ (fun x => e + x)) =
      (List.range mb).map (fun k => ((b + 1 + k : Nat) : Int)) := by
    refine map_range_congr _ _ _ (fun k hk => ?_)
    simp only [Function.comp_apply]
    push_cast
    omega
  rw [h3, List.append_assoc]

/-- Removing index `a` and closing the gap (decrement everything above
`a`) turns `{0,…,N-1} \ {a}` into `{0,…,N-2}` (`a < N`). -/
theorem erase_map_dec {N a : Nat} (haN : a < N) :
    ((intRange N).erase ((a : Nat) : Int)).map
      (fun x => if (a : Int) < x then x - 1 else x) = intRange (N - 1) := by
  obtain ⟨M, hM⟩ : ∃ M, N = M + 1 := ⟨N - 1, by omega⟩
  subst hM
  simp only [Nat.add_sub_cancel]
  by_cases hb : a < M
  · have hcong : ((intRange (M + 1)).erase ((a : Nat) : Int)).map
        (fun x => if (a : Int) < x then x - 1 else x) =
        ((intRange (M + 1)).erase ((a : Nat) : Int)).map
          (fun x => if (a : Int) < x ∧ x ≤ ((M : Nat) : Int) then x - 1 else x) := by
      refine List.map_congr_left (fun x hx => ?_)
      have hxm := mem_intRange_iff.mp (List.mem_of_mem_erase hx)
      by_cases hax : (a : Int) < x
      · rw [if_pos hax, if_pos (And.intro hax (by omega))]
      · rw [if_neg hax, if_neg (fun hc => hax hc.1)]
    rw [hcong, erase_shift_down hb (by omega), intRange_erase_last]
  · have haM : a = M := by omega
    subst haM
    rw [intRange_erase_last]
    exact map_intRange_id _ a (fun x hx0 hxa => if_neg (by omega))

theorem contiguous_iff_perm {items : List PlaylistItem} :
    contiguous items ↔ (orderIndexes items).Perm (intRange items.length) := by
  unfold contiguous
  exact Multiset.coe_eq_coe

theorem foldl_max_perm {l₁ l₂ : List Int} (h : l₁.Perm l₂) :
    ∀ a : Int, l₁.foldl max a = l₂.foldl max a := by
  induction h with
  | nil => intro a; rfl
  | cons x _ ih => intro a; simp only [List.foldl_cons]; exact ih _
  | swap x y l =>
      intro a
      simp only [List.foldl_cons]
      rw [show max (max a y) x = max (max a x) y from by
        rw [max_assoc, max_comm y x, ← max_assoc]]
  | trans _ _ ih₁ ih₂ => intro a; rw [ih₁ a, ih₂ a]

theorem foldl_max_intRange (n : Nat) :
    (intRange n).foldl max (-1) = (n : Int) - 1 := by
  induction n with
  | zero => decide
  | succ k ih =>
      rw [intRange_succ, List.foldl_append, ih]
      simp only [List.foldl_cons, List.foldl_nil]
      rw [max_eq_right (by omega)]
      push_cast
      omega

/-- On a contiguous playlist of `N` items, the SQL `MAX(order_index)` is
`N-1`, so the appended row gets index `N`. -/
theorem nextOrder_of_contiguous {items : List PlaylistItem}
    (h : contiguous items) : nextOrder items = (items.length : Int) := by
  have hperm : (orderIndexes items).Perm (intRange items.length) :=
    contiguous_iff_perm.mp h
  unfold nextOrder
  have hfold : items.foldl (fun m it => max m it.order_index) (-1) =
      (orderIndexes items).foldl max (-1) := by
    unfold orderIndexes
    rw [List.foldl_map]
  rw [hfold, foldl_max_perm hperm, foldl_max_intRange]
  omega

/-- The statement `DELETE … WHERE media_url = ?` removes exactly the row found by the
lookup when URLs are distinct. -/
theorem filter_ne_eq_erase {items : List PlaylistItem} {item : PlaylistItem}
    {url : String} (hnd : urlsNodup items) (hmem : item ∈ items)
    (hurl : item.media_url = url) :
    items.filter (fun it => ¬ it.media_url = url) = items.erase item := by
  induction items with
  | nil => cases hmem
  | cons a rest ih =>
      rcases List.mem_cons.mp hmem with rfl | hm2
      · rw [List.filter_cons_of_neg (by simp [hurl]), List.erase_cons_head]
        apply List.filter_eq_self.mpr
        intro x hx
        have hxu : ¬ x.media_url = url := by
          intro hxu
          exact (List.nodup_cons.mp hnd).1
            (List.mem_map.mpr ⟨x, hx, by
              show x.media_url = item.media_url
              rw [hxu, hurl]⟩)
        simpa using hxu
      · have hau : ¬ a.media_url = url := by
          intro hau
          exact (List.nodup_cons.mp hnd).1
            (List.mem_map.mpr ⟨item, hm2, by
              show item.media_url = a.media_url
              rw [hurl, hau]⟩)
        have hane : ¬ (a == item) = true := by
          simp only [beq_iff_eq]
          intro he
          exact hau (by rw [he, hurl])
        rw [List.filter_cons_of_pos (by simpa using hau),
          List.erase_cons_tail hane]
        exact congrArg (a :: ·) (ih (List.nodup_cons.mp hnd).2 hm2)

theorem addToPlaylist_WF {items : List PlaylistItem} (url : String)
    (thumb : Option String) (now : Nat) (h : playlistWF items) :
    playlistWF (addToPlaylist items url thumb now) := by
  obtain ⟨hnd, hc⟩ := h
  unfold addToPlaylist
  by_cases hp : items.any (fun it => it.media_url = url)
  · rw [if_pos hp]; exact ⟨hnd, hc⟩
  · rw [if_neg hp]
    have hnotin : ∀ it ∈ items, ¬ it.media_url = url := by
      intro it hit hurl
      exact hp (List.any_eq_true.mpr ⟨it, hit, by simp [hurl]⟩)
    constructor
    · unfold urlsNodup at hnd ⊢
      rw [List.map_append]
      refine List.nodup_append.mpr ⟨hnd, List.nodup_singleton _, ?_⟩
      intro x hx hx2
      obtain ⟨it, hit, he⟩ := List.mem_map.mp hx
      have : x = url := by simpa using hx2
      exact hnotin it hit (by rw [he, this])
    · rw [contiguous_iff_perm]
      unfold orderIndexes
      rw [List.map_append, List.length_append]
      simp only [List.map_cons, List.map_nil, List.length_cons, List.length_nil,
        Nat.zero_add, Nat.add_zero]
      rw [nextOrder_of_contiguous hc, intRange_succ]
      exact (contiguous_iff_perm.mp hc).append_right _

theorem removeFromPlaylist_WF {items : List PlaylistItem} (url : String)
    (h : playlistWF items) : playlistWF (removeFromPlaylist items url) := by
  obtain ⟨hnd, hc⟩ := h
  unfold removeFromPlaylist
  cases hf : items.find? (fun it => it.media_url = url) with
  | none => exact ⟨hnd, hc⟩
  | some item =>
      have hmem := List.mem_of_find?_eq_some hf
      have hurl : item.media_url = url := by
        have hp := List.find?_some hf
        simpa using hp
      rw [filter_ne_eq_erase hnd hmem hurl]
      have hndE : urlsNodup (items.erase item) := by
        unfold urlsNodup at hnd ⊢
        exact List.Nodup.sublist
          (List.Sublist.map _ (List.erase_sublist item items)) hnd
      constructor
      · unfold urlsNodup at hndE ⊢
        rw [List.map_map]
        have hcomp : (items.erase item).map
            ((fun it => it.media_url) ∘ (fun it =>
              if item.order_index < it.order_index
              then { it with order_index := it.order_index - 1 } else it)) =
            (items.erase item).map (fun it => it.media_url) := by
          refine List.map_congr_left (fun it hit => ?_)
          simp only [Function.comp_apply]
          split
          · rfl
          · rfl
        rw [hcomp]
        exact hndE
      · unfold contiguous orderIndexes
        rw [List.map_map, List.length_map, List.length_erase_of_mem hmem]
        have hpermOrd : (items.map (fun it => it.order_index)).Perm
            (item.order_index :: (items.erase item).map (fun it => it.order_index)) := by
          have h1 := (List.perm_cons_erase hmem).map (fun it => it.order_index)
          simpa using h1
        have hcMs : (↑(items.map (fun it => it.order_index)) : Multiset Int) =
            ↑(intRange items.length) := hc
        have hBe : (↑((items.erase item).map (fun it => it.order_index)) : Multiset Int) =
            (↑(intRange items.length) : Multiset Int).erase item.order_index := by
          have h2 : (↑(items.map (fun it => it.order_index)) : Multiset Int) =
              item.order_index ::ₘ
                ↑((items.erase item).map (fun it => it.order_index)) := by
            rw [Multiset.cons_coe]
            exact Multiset.coe_eq_coe.mpr hpermOrd
          rw [← hcMs, h2, Multiset.erase_cons_head]
        have hiN : item.order_index ∈ intRange items.length := by
          have h3 : item.order_index ∈ items.map (fun it => it.order_index) :=
            List.mem_map.mpr ⟨item, hmem, rfl⟩
          have h4 : item.order_index ∈ (↑(intRange items.length) : Multiset Int) := by
            rw [← hcMs]
            exact Multiset.mem_coe.mpr h3
          exact Multiset.mem_coe.mp h4
        have hmr := mem_intRange_iff.mp hiN
        obtain ⟨a, ha1, ha2⟩ :
            ∃ a : Nat, item.order_index = (a : Int) ∧ a < items.length :=
          ⟨item.order_index.toNat, by omega, by omega⟩
        have hof : (items.erase item).map ((fun it => it.order_index) ∘ (fun it =>
              if item.order_index < it.order_index
              then { it with order_index := it.order_index - 1 } else it)) =
            ((items.erase item).map (fun it => it.order_index)).map
              (fun x => if item.order_index < x then x - 1 else x) := by
          rw [List.map_map]
          refine List.map_congr_left (fun it hit => ?_)
          simp only [Function.comp_apply]
          by_cases hlt : item.order_index < it.order_index
          · rw [if_pos hlt, if_pos hlt]
          · rw [if_neg hlt, if_neg hlt]
        rw [hof]
        calc (↑(((items.erase item).map (fun it => it.order_index)).map
                (fun x => if item.order_index < x then x - 1 else x)) : Multiset Int)
            = Multiset.map (fun x => if item.order_index < x then x - 1 else x)
                (↑((items.erase item).map (fun it => it.order_index))) := by
              rw [Multiset.map_coe]
          _ = Multiset.map (fun x => if item.order_index < x then x - 1 else x)
                (↑((intRange items.length).erase item.order_index)) := by
              rw [hBe, Multiset.coe_erase]
          _ = ↑(((intRange items.length).erase item.order_index).map
                (fun x => if item.order_index < x then x - 1 else x)) := by
              rw [Multiset.map_coe]
          _ = ↑(intRange (items.length - 1)) := by
              rw [ha1, erase_map_dec ha2]

theorem moveFun_media (i j : Int) (url : String) (it : PlaylistItem) :
    (moveFun i j url it).media_url = it.media_url := by
  unfold moveFun
  split
  · rfl
  · split
    · rfl
    · split
      · rfl
      · rfl

theorem moveFun_order_of_url (i j : Int) (url : String) (it : PlaylistItem)
    (h : it.media_url = url) : moveFun i j url it = { it with order_index := j } := by
  unfold moveFun
  rw [if_pos h]

theorem moveFun_order_of_ne (i j : Int) (url : String) (it : PlaylistItem)
    (h : ¬ it.media_url = url) :
    (moveFun i j url it).order_index = moveShift i j it.order_index := by
  unfold moveFun moveShift
  rw [if_neg h]
  by_cases h1 : i < j ∧ i < it.order_index ∧ it.order_index ≤ j
  · rw [if_pos h1, if_pos h1, setOrder_order]
  · rw [if_neg h1, if_neg h1]
    by_cases h2 : j < i ∧ j ≤ it.order_index ∧ it.order_index < i
    · rw [if_pos h2, if_pos h2, setOrder_order]
    · rw [if_neg h2, if_neg h2]

theorem reorderPlaylistItem_WF {items : List PlaylistItem} (url : String)
    (j : Int) (h : playlistWF items)
    (hj : 0 ≤ j ∧ j < (items.length : Int)) :
    playlistWF (reorderPlaylistItem items url j) := by
  obtain ⟨hnd, hc⟩ := h
  cases hf : items.find? (fun it => it.media_url = url) with
  | none =>
      have hr : reorderPlaylistItem items url j = items := by
        unfold reorderPlaylistItem
        rw [hf]
      rw [hr]
      exact ⟨hnd, hc⟩
  | some item =>
      have hmem := List.mem_of_find?_eq_some hf
      have hurl : item.media_url = url := by
        have hp := List.find?_some hf
        simpa using hp
      by_cases hij : item.order_index = j
      · have hr : reorderPlaylistItem items url j = items := by
          simp only [reorderPlaylistItem, hf, if_pos hij]
        rw [hr]
        exact ⟨hnd, hc⟩
      · have hmap : reorderPlaylistItem items url j =
            items.map (moveFun item.order_index j url) :=
          reorder_shift_map items item url j hnd hmem hurl
        rw [hmap]
        have hndItems : items.Nodup := List.Nodup.of_map _ hnd
        constructor
        · unfold urlsNodup at hnd ⊢
          rw [List.map_map]
          have hcomp :
              items.map ((fun it => it.media_url) ∘ moveFun item.order_index j url) =
              items.map (fun it => it.media_url) :=
            List.map_congr_left (fun it _ => by
              simp only [Function.comp_apply, moveFun_media])
          rw [hcomp]
          exact hnd
        · unfold contiguous orderIndexes
          rw [List.map_map, List.length_map]
          have hcMs : (↑(items.map (fun it => it.order_index)) : Multiset Int) =
              ↑(intRange items.length) := hc
          have hiN : item.order_index ∈ intRange items.length := by
            have h3 : item.order_index ∈ items.map (fun it => it.order_index) :=
              List.mem_map.mpr ⟨item, hmem, rfl⟩
            have h4 : item.order_index ∈ (↑(intRange items.length) : Multiset Int) := by
              rw [← hcMs]
              exact Multiset.mem_coe.mpr h3
            exact Multiset.mem_coe.mp h4
          have hmr := mem_intRange_iff.mp hiN
          obtain ⟨a, ha1, ha2⟩ :
              ∃ a : Nat, item.order_index = (a : Int) ∧ a < items.length :=
            ⟨item.order_index.toNat, by omega, by omega⟩
          obtain ⟨b, hb1, hb2⟩ :
              ∃ b : Nat, j = (b : Int) ∧ b < items.length :=
            ⟨j.toNat, by omega, by omega⟩
          have hpermOrd : (items.map (fun it => it.order_index)).Perm
              (item.order_index ::
                (items.erase item).map (fun it => it.order_index)) := by
            have h1 := (List.perm_cons_erase hmem).map (fun it => it.order_index)
            simpa using h1
          have hBe : (↑((items.erase item).map (fun it => it.order_index)) : Multiset Int) =
              (↑(intRange items.length) : Multiset Int).erase item.order_index := by
            have h2 : (↑(items.map (fun it => it.order_index)) : Multiset Int) =
                item.order_index ::ₘ
                  ↑((items.erase item).map (fun it => it.order_index)) := by
              rw [Multiset.cons_coe]
              exact Multiset.coe_eq_coe.mpr hpermOrd
            rw [← hcMs, h2, Multiset.erase_cons_head]
          have hgitem :
              ((fun it => it.order_index) ∘ moveFun item.order_index j url) item = j := by
            simp only [Function.comp_apply, moveFun_order_of_url _ _ _ _ hurl,
              setOrder_order]
          have htail : (items.erase item).map
              ((fun it => it.order_index) ∘ moveFun item.order_index j url) =
              ((items.erase item).map (fun it => it.order_index)).map
                (moveShift item.order_index j) := by
            rw [List.map_map]
            refine List.map_congr_left (fun it hit => ?_)
            have hmemE := (List.Nodup.mem_erase_iff hndItems).mp hit
            have hne : ¬ it.media_url = url := fun hu =>
              hmemE.1 (eq_of_urlsNodup hnd hmemE.2 hmem (by rw [hu, hurl]))
            simp only [Function.comp_apply]
            exact moveFun_order_of_ne _ _ _ _ hne
          have hpermG : (items.map
              ((fun it => it.order_index) ∘ moveFun item.order_index j url)).Perm
              (j :: ((items.erase item).map (fun it => it.order_index)).map
                (moveShift item.order_index j)) := by
            have hp1 := (List.perm_cons_erase hmem).map
              ((fun it => it.order_index) ∘ moveFun item.order_index j url)
            rw [List.map_cons, hgitem, htail] at hp1
            exact hp1
          have hshift : ((intRange items.length).erase item.order_index).map
              (moveShift item.order_index j) =
              (intRange items.length).erase j := by
            rcases lt_or_gt_of_ne hij with hlt | hgt
            · have hab : a < b := by omega
              have hcong : ((intRange items.length).erase item.order_index).map
                  (moveShift item.order_index j) =
                  ((intRange items.length).erase item.order_index).map
                    (fun x => if ((a : Nat) : Int) < x ∧ x ≤ ((b : Nat) : Int)
                      then x - 1 else x) := by
                refine List.map_congr_left (fun x hx => ?_)
                unfold moveShift
                by_cases hcc : ((a : Nat) : Int) < x ∧ x ≤ ((b : Nat) : Int)
                · rw [if_pos (by omega), if_pos hcc]
                · rw [if_neg (by omega), if_neg (by omega), if_neg hcc]
              rw [hcong, ha1, erase_shift_down hab hb2, ← hb1]
            · have hba : b < a := by omega
              have hcong : ((intRange items.length).erase item.order_index).map
                  (moveShift item.order_index j) =
                  ((intRange items.length).erase item.order_index).map
                    (fun x => if ((b : Nat) : Int) ≤ x ∧ x < ((a : Nat) : Int)
                      then x + 1 else x) := by
                refine List.map_congr_left (fun x hx => ?_)
                unfold moveShift
                by_cases hcc : ((b : Nat) : Int) ≤ x ∧ x < ((a : Nat) : Int)
                · rw [if_neg (by omega), if_pos (by omega), if_pos hcc]
                · rw [if_neg (by omega), if_neg (by omega), if_neg hcc]
              rw [hcong, ha1, erase_shift_up hba ha2, ← hb1]
          calc (↑(items.map
                ((fun it => it.order_index) ∘ moveFun item.order_index j url)) : Multiset Int)
              = ↑(j :: ((items.erase item).map (fun it => it.order_index)).map
                  (moveShift item.order_index j)) := Multiset.coe_eq_coe.mpr hpermG
            _ = j ::ₘ ↑(((items.erase item).map (fun it => it.order_index)).map
                  (moveShift item.order_index j)) := by rw [Multiset.cons_coe]
            _ = j ::ₘ Multiset.map (moveShift item.order_index j)
                  (↑((items.erase item).map (fun it => it.order_index))) := by
                rw [Multiset.map_coe]
            _ = j ::ₘ Multiset.map (moveShift item.order_index j)
                  (↑((intRange items.length).erase item.order_index)) := by
                rw [hBe, Multiset.coe_erase]
            _ = j ::ₘ ↑(((intRange items.length).erase item.order_index).map
                  (moveShift item.order_index j)) := by rw [Multiset.map_coe]
            _ = j ::ₘ ↑((intRange items.length).erase j) := by rw [hshift]
            _ = j ::ₘ (↑(intRange items.length) : Multiset Int).erase j := by
                rw [Multiset.coe_erase]
            _ = ↑(intRange items.length) :=
                Multiset.cons_erase
                  (Multiset.mem_coe.mpr (mem_intRange_iff.mpr ⟨hj.1, hj.2⟩))

theorem playlistWF_nil : playlistWF [] := by
  constructor
  · exact List.nodup_nil
  · decide

theorem movesInRangeB_take :
    ∀ (ops : List PlOp) (items : List PlaylistItem) (k : Nat),
      movesInRangeB items ops = true → movesInRangeB items (ops.take k) = true := by
  intro ops
  induction ops with
  | nil => intro items k h; simpa using h
  | cons op rest ih =>
      intro items k h
      cases k with
      | zero => rfl
      | succ k =>
          rw [List.take_succ_cons]
          unfold movesInRangeB at h ⊢
          rw [Bool.and_eq_true] at h ⊢
          exact ⟨h.1, ih _ _ h.2⟩

/-- Any single operation whose move target (if it is a move) lies in range
preserves well-formedness; folded over a whole sequence. -/
theorem applyOps_WF {items : List PlaylistItem} (ops : List PlOp)
    (h : playlistWF items) (hm : movesInRangeB items ops = true) :
    playlistWF (applyOps items ops) := by
  induction ops generalizing items with
  | nil => exact h
  | cons op rest ih =>
      rw [show applyOps items (op :: rest) = applyOps (applyOp items op) rest from rfl]
      unfold movesInRangeB at hm
      rw [Bool.and_eq_true] at hm
      refine ih ?_ hm.2
      cases op with
      | add url thumb now => exact addToPlaylist_WF url thumb now h
      | remove url => exact removeFromPlaylist_WF url h
      | move url j =>
          refine reorderPlaylistItem_WF url j h ?_
          have h1 := hm.1
          simpa using h1

/-- C1 (amended): starting from the empty playlist, after every prefix of
any sequence of add/remove/move operations in which each move's `newIndex`
lies in `[0, N-1]` for the item count `N` at that moment, the multiset of
`order_index` values is exactly `{0, …, N-1}`. -/
theorem playlist_invariant_inRange (ops : List PlOp)
    (h : movesInRangeB [] ops = true) :
    ∀ k : Nat, contiguous (applyOps [] (ops.take k)) := fun k =>
  (applyOps_WF (ops.take k) playlistWF_nil (movesInRangeB_take ops [] k h)).2

theorem playlist_invariant_inRange_witness :
    movesInRangeB []
        [PlOp.add "A" none 0, PlOp.add "B" none 1,
          PlOp.move "A" 1, PlOp.remove "B"] = true ∧
      contiguous (applyOps []
        ([PlOp.add "A" none 0, PlOp.add "B" none 1,
          PlOp.move "A" 1, PlOp.remove "B"].take 3)) :=
  ⟨by decide,
    playlist_invariant_inRange
      [PlOp.add "A" none 0, PlOp.add "B" none 1,
        PlOp.move "A" 1, PlOp.remove "B"] (by decide) 3⟩

/-- C1 as stated is false: `reorderPlaylistItem` performs no bounds check
on `newIndex`, so moving "A" to index 5 in a two-item playlist leaves
order indexes `{5, 0}` — not `{0, 1}`. -/
theorem playlist_invariant_counterexample :
    ¬ contiguous (applyOps []
      [PlOp.add "A" none 0, PlOp.add "B" none 0, PlOp.move "A" 5]) := by
  decide

/-- C9: adding an already-present URL leaves `playlist_items` unchanged
(the insert is ignored), yet still rewrites the parent playlist's
`updated_at` to the current time; every other field of every playlist row
is untouched, and playlists with a different id are untouched entirely. -/
theorem addToPlaylist_dup_refreshes_updated_at
    (pls : List Playlist) (rows : List PlaylistItemRow) (pid : Nat)
    (mediaUrl : String) (thumb : Option String) (now : Nat)
    (hdup : rows.any (fun r => r.playlist_id = pid ∧ r.media_url = mediaUrl) = true) :
    (addToPlaylistDb pls rows pid mediaUrl thumb now).2 = rows ∧
      (addToPlaylistDb pls rows pid mediaUrl thumb now).1.length = pls.length ∧
      ∀ (k : Nat) (hk : k < pls.length)
        (hk2 : k < (addToPlaylistDb pls rows pid mediaUrl thumb now).1.length),
        ((addToPlaylistDb pls rows pid mediaUrl thumb now).1.get ⟨k, hk2⟩).id
            = (pls.get ⟨k, hk⟩).id ∧
        ((addToPlaylistDb pls rows pid mediaUrl thumb now).1.get ⟨k, hk2⟩).name
            = (pls.get ⟨k, hk⟩).name ∧
        ((addToPlaylistDb pls rows pid mediaUrl thumb now).1.get ⟨k, hk2⟩).description
            = (pls.get ⟨k, hk⟩).description ∧
        ((addToPlaylistDb pls rows pid mediaUrl thumb now).1.get ⟨k, hk2⟩).created_at
            = (pls.get ⟨k, hk⟩).created_at ∧
        ((addToPlaylistDb pls rows pid mediaUrl thumb now).1.get ⟨k, hk2⟩).updated_at
            = (if (pls.get ⟨k, hk⟩).id = pid then now
               else (pls.get ⟨k, hk⟩).updated_at) := by
  refine ⟨by simp only [addToPlaylistDb, if_pos hdup], by
    simp only [addToPlaylistDb, List.length_map], ?_⟩
  intro k hk hk2
  have hget : (addToPlaylistDb pls rows pid mediaUrl thumb now).1.get ⟨k, hk2⟩ =
      (if (pls.get ⟨k, hk⟩).id = pid
       then { pls.get ⟨k, hk⟩ with updated_at := now }
       else pls.get ⟨k, hk⟩) := by
    exact List.getElem_map _
  rw [hget]
  by_cases hp : (pls.get ⟨k, hk⟩).id = pid
  · rw [if_pos hp, if_pos hp]
    exact ⟨rfl, rfl, rfl, rfl, rfl⟩
  · rw [if_neg hp, if_neg hp]
    exact ⟨rfl, rfl, rfl, rfl, rfl⟩

theorem addToPlaylist_dup_refreshes_updated_at_witness :
    ([({ playlist_id := 7, media_url := "u", order_index := 0,
          added_at := 0, thumbnail_path := none } : PlaylistItemRow)].any
        (fun r => r.playlist_id = 7 ∧ r.media_url = "u") = true) ∧
      ((addToPlaylistDb
          [{ id := 7, name := "p", description := none,
             created_at := 3, updated_at := 4 }]
          [{ playlist_id := 7, media_url := "u", order_index := 0,
             added_at := 0, thumbnail_path := none }] 7 "u" none 99).2 =
        [{ playlist_id := 7, media_url := "u", order_index := 0,
           added_at := 0, thumbnail_path := none }]) :=
  ⟨by decide,
    (addToPlaylist_dup_refreshes_updated_at
      [{ id := 7, name := "p", description := none,
         created_at := 3, updated_at := 4 }]
      [{ playlist_id := 7, media_url := "u", order_index := 0,
         added_at := 0, thumbnail_path := none }] 7 "u" none 99 (by decide)).1⟩

/-- C2 fails on the code: recording the same directory twice inserts a
second row (each with `use_count = 1`) instead of upserting, because the
row's NULL `platform`/`service` never collide with the stored NULLs under
SQLite's UNIQUE-index semantics.  (With both columns non-NULL, as in
`addUserToHistory`, the upsert does fire — shown for contrast.) -/
theorem directory_history_upsert_bug :
    (addDirectoryToHistory (addDirectoryToHistory [] "/videos" 1) "/videos" 2) =
      [{ typ := "directory", value := "/videos", platform := none,
         service := none, last_used := 1, use_count := 1 },
       { typ := "directory", value := "/videos", platform := none,
         service := none, last_used := 2, use_count := 1 }] ∧
      (addUserToHistory (addUserToHistory [] "u" "p" "s" 1) "u" "p" "s" 2) =
        [{ typ := "user", value := "u", platform := some "p",
           service := some "s", last_used := 2, use_count := 2 }] := by
  constructor
  · decide
  · decide

/-- A successful `generateThumbnail` call returned exactly the
hash-derived reference, and afterwards the thumbnail file exists. -/
theorem gen_some_eq_ref {env : Env} {w : World} {fp h r : String} {w2 : World}
    {effs : List Eff} (hcall : generateThumbnail env w fp h = (some r, w2, effs)) :
    r = thumbRef h ∧ w2.thumbFiles.contains (thumbName h) = true := by
  unfold generateThumbnail at hcall
  by_cases h1 : videoExt fp = true
  · rw [if_neg (not_not_intro h1)] at hcall
    by_cases h2 : w.thumbFiles.contains (thumbName h) = true
    · rw [if_pos h2] at hcall
      simp only [Prod.mk.injEq, Option.some.injEq] at hcall
      obtain ⟨hr, hw, he⟩ := hcall
      exact ⟨hr.symm, by rw [← hw]; exact h2⟩
    · rw [if_neg h2] at hcall
      by_cases h3 : env.extractOk fp 5 = true
      · rw [if_pos h3] at hcall
        simp only [Prod.mk.injEq, Option.some.injEq] at hcall
        obtain ⟨hr, hw, he⟩ := hcall
        refine ⟨hr.symm, ?_⟩
        rw [← hw]
        simp
      · rw [if_neg h3] at hcall
        by_cases h4 : env.extractOk fp 2 = true
        · rw [if_pos h4] at hcall
          simp at hcall
        · rw [if_neg h4] at hcall
          by_cases h5 : env.extractOk fp 1 = true
          · rw [if_pos h5] at hcall
            simp at hcall
          · rw [if_neg h5] at hcall
            simp at hcall
  · rw [if_pos h1] at hcall
    simp at hcall

/-- When the thumbnail file already exists for a video path, the call is a
pure existence check: same world, no effects, reference returned. -/
theorem gen_exists_pure (env : Env) (w : World) (fp h : String)
    (hv : videoExt fp = true)
    (hex : w.thumbFiles.contains (thumbName h) = true) :
    generateThumbnail env w fp h = (some (thumbRef h), w, []) := by
  unfold generateThumbnail
  rw [if_neg (not_not_intro hv), if_pos hex]

/-- The function `generateThumbnail` never hashes and never probes duration: its
effects are frame extractions only. -/
theorem gen_effs_no_hash (env : Env) (w : World) (fp h : String) :
    (∀ q, Eff.hashEff q ∉ (generateThumbnail env w fp h).2.2) ∧
    (∀ q, Eff.durationEff q ∉ (generateThumbnail env w fp h).2.2) := by
  unfold generateThumbnail
  split_ifs <;>
    exact ⟨fun q hq => by simp at hq, fun q hq => by simp at hq⟩

/-- C7 fails on the code: for a video whose 5-second extraction fails and
whose 2-second retry succeeds, the retry writes `h.jpg` into the
thumbnail directory but the call still returns `null`; the reference is
returned only from the pre-existence check or a successful 5-second
attempt. -/
theorem thumbnail_retry_returns_null_bug :
    generateThumbnail envRetry2 ⟨[]⟩ "/a/v.mp4" "h" =
      (none, ⟨["h.jpg"]⟩,
        [Eff.spawnEff "/a/v.mp4" 5, Eff.spawnEff "/a/v.mp4" 2]) := by
  decide

/-- C10: the fast lookup selects the stored record by resolved path alone
and validates nothing: whatever `stat` would report (the result is the
same under any environment agreeing on `path.resolve` — here even one
where the file is gone), the stored row is returned unchanged with no
effect performed. -/
theorem getCachedRecord_no_validation
    (env env2 : Env) (db : List FileRecord) (filePath : String) (r : FileRecord)
    (hres : env2.resolvePath = env.resolvePath)
    (hfind : db.find? (fun q => q.path = env.resolvePath filePath) = some r) :
    getCachedRecord env db filePath = (some r, []) ∧
      getCachedRecord env2 db filePath = (some r, []) := by
  unfold getCachedRecord
  rw [hres, hfind]
  exact ⟨rfl, rfl⟩

theorem getCachedRecord_no_validation_witness :
    (envGone.resolvePath = envChanged.resolvePath ∧
      [recThumb].find?
        (fun q => q.path = envChanged.resolvePath "/a/v.mp4") = some recThumb) ∧
    (getCachedRecord envChanged [recThumb] "/a/v.mp4" = (some recThumb, []) ∧
      getCachedRecord envGone [recThumb] "/a/v.mp4" = (some recThumb, [])) :=
  ⟨⟨rfl, by decide⟩,
    getCachedRecord_no_validation envChanged envGone [recThumb] "/a/v.mp4"
      recThumb rfl (by decide)⟩

/-- C8: thumbnail output is content-addressed.  (i) Any returned
reference equals the hash-derived `/thumbnails/hash.jpg`, so two
successful calls with the same hash return the same reference; (ii) when
the thumbnail file already exists the call is a pure existence check —
reference returned, world untouched, no extraction spawned; (iii) hence a
second call with the hash of a previously successful call (even for a
different file of identical content) returns the same reference without
invoking the extraction tool. -/
theorem thumbnail_content_addressed :
    (∀ (env : Env) (w : World) (fp h r : String) (w2 : World) (effs : List Eff),
        generateThumbnail env w fp h = (some r, w2, effs) → r = thumbRef h) ∧
    (∀ (env : Env) (w : World) (fp h : String),
        videoExt fp = true → w.thumbFiles.contains (thumbName h) = true →
        generateThumbnail env w fp h = (some (thumbRef h), w, [])) ∧
    (∀ (env : Env) (w : World) (fp fp2 h r : String) (w2 : World) (effs : List Eff),
        generateThumbnail env w fp h = (some r, w2, effs) →
        videoExt fp2 = true →
        generateThumbnail env w2 fp2 h = (some r, w2, [])) := by
  refine ⟨fun env w fp h r w2 effs hc => (gen_some_eq_ref hc).1,
    fun env w fp h hv hex => gen_exists_pure env w fp h hv hex,
    fun env w fp fp2 h r w2 effs hc hv2 => ?_⟩
  obtain ⟨hr, hcont⟩ := gen_some_eq_ref hc
  rw [hr]
  exact gen_exists_pure env w2 fp2 h hv2 hcont

theorem thumbnail_content_addressed_witness :
    (generateThumbnail envExtractAll ⟨[]⟩ "/a/v.mp4" "h" =
        (some "/thumbnails/h.jpg", ⟨["h.jpg"]⟩, [Eff.spawnEff "/a/v.mp4" 5]) ∧
      videoExt "/b/w.mkv" = true) ∧
    generateThumbnail envExtractAll ⟨["h.jpg"]⟩ "/b/w.mkv" "h" =
      (some "/thumbnails/h.jpg", ⟨["h.jpg"]⟩, []) :=
  ⟨⟨by decide, by decide⟩,
    thumbnail_content_addressed.2.2 envExtractAll ⟨[]⟩ "/a/v.mp4" "/b/w.mkv"
      "h" "/thumbnails/h.jpg" ⟨["h.jpg"]⟩ [Eff.spawnEff "/a/v.mp4" 5]
      (by decide) (by decide)⟩

/-- On the fast path (stored record matches the current `(size, mtime)`)
`getOrCreateFileRecord` never hashes and never probes duration, and the
returned record keeps the stored hash, size and mtime. -/
theorem resolve_fast_path_no_hash
    (env : Env) (w : World) (db : List FileRecord) (fp : String) (st : Stat)
    (ex r : FileRecord) (db2 : List FileRecord) (w2 : World) (effs : List Eff)
    (hstat : env.statOf (env.resolvePath fp) = some st)
    (hfind : db.find? (fun q => q.path = env.resolvePath fp) = some ex)
    (hmt : ex.mtime = st.mtime) (hsz : ex.size = st.size)
    (hcall : getOrCreateFileRecord env w db fp = some (r, db2, w2, effs)) :
    (∀ q, Eff.hashEff q ∉ effs) ∧ (∀ q, Eff.durationEff q ∉ effs) ∧
    r.hash = ex.hash ∧ r.size = ex.size ∧ r.mtime = ex.mtime := by
  unfold getOrCreateFileRecord at hcall
  simp only [hstat, hfind, if_pos (And.intro hmt hsz)] at hcall
  cases hth : ex.thumbnail_path with
  | some t =>
      simp only [hth] at hcall
      simp only [Option.some.injEq, Prod.mk.injEq] at hcall
      obtain ⟨he1, he2, he3, he4⟩ := hcall
      subst he1
      rw [← he4]
      exact ⟨fun q hq => by simp at hq, fun q hq => by simp at hq, rfl, rfl, rfl⟩
  | none =>
      simp only [hth] at hcall
      have hgen := gen_effs_no_hash env w (env.resolvePath fp) ex.hash
      cases hres : (generateThumbnail env w (env.resolvePath fp) ex.hash).1 with
      | some t =>
          simp only [hres, Option.some.injEq, Prod.mk.injEq] at hcall
          obtain ⟨he1, he2, he3, he4⟩ := hcall
          subst he1
          rw [← he4]
          exact ⟨hgen.1, hgen.2, rfl, rfl, rfl⟩
      | none =>
          simp only [hres, Option.some.injEq, Prod.mk.injEq] at hcall
          obtain ⟨he1, he2, he3, he4⟩ := hcall
          subst he1
          rw [← he4]
          exact ⟨hgen.1, hgen.2, rfl, rfl, rfl⟩

/-- If additionally the stored record already has a thumbnail, or the
path is not a recognized video, the fast path is a pure read: the stored
record is returned unchanged and nothing at all is spawned. -/
theorem resolve_fast_path_pure
    (env : Env) (w : World) (db : List FileRecord) (fp : String) (st : Stat)
    (ex : FileRecord)
    (hstat : env.statOf (env.resolvePath fp) = some st)
    (hfind : db.find? (fun q => q.path = env.resolvePath fp) = some ex)
    (hmt : ex.mtime = st.mtime) (hsz : ex.size = st.size)
    (hside : (∃ t, ex.thumbnail_path = some t) ∨
      videoExt (env.resolvePath fp) = false) :
    getOrCreateFileRecord env w db fp = some (ex, db, w, []) := by
  unfold getOrCreateFileRecord
  simp only [hstat, hfind, if_pos (And.intro hmt hsz)]
  rcases hside with ⟨t, ht⟩ | hnv
  · simp only [ht]
  · cases hth : ex.thumbnail_path with
    | some t => simp only [hth]
    | none =>
        simp only [hth]
        have hgen : generateThumbnail env w (env.resolvePath fp) ex.hash =
            (none, w, []) := by
          unfold generateThumbnail
          rw [if_pos (by simp [hnv])]
        simp only [hgen]

/-- After any successful `getOrCreateFileRecord` call, the files table
holds a row for the resolved path whose `(size, mtime)` equal the
statted values — so an immediately following call takes the fast path. -/
theorem getOrCreate_db_matching
    (env : Env) (w : World) (db : List FileRecord) (fp : String) (st : Stat)
    (r : FileRecord) (db2 : List FileRecord) (w2 : World) (effs : List Eff)
    (hstat : env.statOf (env.resolvePath fp) = some st)
    (hcall : getOrCreateFileRecord env w db fp = some (r, db2, w2, effs)) :
    ∃ r2, db2.find? (fun q => q.path = env.resolvePath fp) = some r2 ∧
      r2.size = st.size ∧ r2.mtime = st.mtime := by
  unfold getOrCreateFileRecord at hcall
  simp only [hstat] at hcall
  cases hfind : db.find? (fun q => q.path = env.resolvePath fp) with
  | some ex =>
      have hexp : ex.path = env.resolvePath fp := by
        have hp := List.find?_some hfind
        simpa using hp
      simp only [hfind] at hcall
      by_cases hcond : ex.mtime = st.mtime ∧ ex.size = st.size
      · rw [if_pos hcond] at hcall
        cases hth : ex.thumbnail_path with
        | some t =>
            simp only [hth, Option.some.injEq, Prod.mk.injEq] at hcall
            obtain ⟨he1, he2, he3, he4⟩ := hcall
            exact ⟨ex, by rw [← he2]; exact hfind, hcond.2, hcond.1⟩
        | none =>
            simp only [hth] at hcall
            cases hres : (generateThumbnail env w (env.resolvePath fp) ex.hash).1 with
            | some t =>
                simp only [hres, Option.some.injEq, Prod.mk.injEq] at hcall
                obtain ⟨he1, he2, he3, he4⟩ := hcall
                refine ⟨{ ex with thumbnail_path := some t }, ?_, hcond.2, hcond.1⟩
                rw [← he2, List.find?_map]
                have hfun : ((fun q : FileRecord => decide (q.path = env.resolvePath fp)) ∘
                    (fun q : FileRecord => if q.path = env.resolvePath fp
                      then { q with thumbnail_path := some t } else q)) =
                    (fun q : FileRecord => decide (q.path = env.resolvePath fp)) := by
                  funext x
                  by_cases hx : x.path = env.resolvePath fp
                  · simp only [Function.comp_apply, if_pos hx]
                  · simp only [Function.comp_apply, if_neg hx]
                rw [hfun, hfind]
                simp only [Option.map_some']
                rw [if_pos hexp]
            | none =>
                simp only [hres, Option.some.injEq, Prod.mk.injEq] at hcall
                obtain ⟨he1, he2, he3, he4⟩ := hcall
                exact ⟨ex, by rw [← he2]; exact hfind, hcond.2, hcond.1⟩
      · rw [if_neg hcond] at hcall
        simp only [Option.some.injEq, Prod.mk.injEq] at hcall
        obtain ⟨he1, he2, he3, he4⟩ := hcall
        refine ⟨{ ex with
            hash := env.hashOf (env.resolvePath fp),
            size := st.size, mtime := st.mtime,
            duration := if durationExt (env.resolvePath fp)
              then env.durationOf (env.resolvePath fp) else none,
            thumbnail_path :=
              (generateThumbnail env w (env.resolvePath fp)
                (env.hashOf (env.resolvePath fp))).1 }, ?_, rfl, rfl⟩
        rw [← he2, List.find?_map]
        have hfun : ((fun q : FileRecord => decide (q.path = env.resolvePath fp)) ∘
            (fun q : FileRecord => if q.path = env.resolvePath fp then
              { q with
                hash := env.hashOf (env.resolvePath fp),
                size := st.size, mtime := st.mtime,
                duration := if durationExt (env.resolvePath fp)
                  then env.durationOf (env.resolvePath fp) else none,
                thumbnail_path :=
                  (generateThumbnail env w (env.resolvePath fp)
                    (env.hashOf (env.resolvePath fp))).1 }
              else q)) =
            (fun q : FileRecord => decide (q.path = env.resolvePath fp)) := by
          funext x
          by_cases hx : x.path = env.resolvePath fp
          · simp only [Function.comp_apply, if_pos hx]
          · simp only [Function.comp_apply, if_neg hx]
        rw [hfun, hfind]
        simp only [Option.map_some']
        rw [if_pos hexp]
  | none =>
      simp only [hfind] at hcall
      simp only [Option.some.injEq, Prod.mk.injEq] at hcall
      obtain ⟨he1, he2, he3, he4⟩ := hcall
      refine ⟨{ path := env.resolvePath fp,
                hash := env.hashOf (env.resolvePath fp),
                size := st.size, mtime := st.mtime,
                duration := if durationExt (env.resolvePath fp)
                  then env.durationOf (env.resolvePath fp) else none,
                directory := dirname (env.resolvePath fp),
                filename := basename (env.resolvePath fp),
                thumbnail_path :=
                  (generateThumbnail env w (env.resolvePath fp)
                    (env.hashOf (env.resolvePath fp))).1 }, ?_, rfl, rfl⟩
      rw [← he2, List.find?_append, hfind]
      simp only [Option.none_or]
      rw [List.find?_cons_of_pos _ (by simp)]

/-- Calling resolve twice with no file modification in between: the
second call performs no hashing and no duration probe. -/
theorem resolve_second_call_no_hash
    (env : Env) (w : World) (db : List FileRecord) (fp : String)
    (r : FileRecord) (db2 : List FileRecord) (w2 : World) (effs : List Eff)
    (r2 : FileRecord) (db3 : List FileRecord) (w3 : World) (effs2 : List Eff)
    (h1 : getOrCreateFileRecord env w db fp = some (r, db2, w2, effs))
    (h2 : getOrCreateFileRecord env w2 db2 fp = some (r2, db3, w3, effs2)) :
    (∀ q, Eff.hashEff q ∉ effs2) ∧ (∀ q, Eff.durationEff q ∉ effs2) := by
  cases hstat : env.statOf (env.resolvePath fp) with
  | none =>
      unfold getOrCreateFileRecord at h1
      simp only [hstat] at h1
      exact Option.noConfusion h1
  | some st =>
      obtain ⟨rr, hfind2, hsz2, hmt2⟩ :=
        getOrCreate_db_matching env w db fp st r db2 w2 effs hstat h1
      have hres := resolve_fast_path_no_hash env w2 db2 fp st rr r2 db3 w3 effs2
        hstat hfind2 hmt2 hsz2 h2
      exact ⟨hres.1, hres.2.1⟩

/-- C3 (amended): when a stored record matches the file's current
`(size, mtime)`, the call performs no hashing and no duration probe and
keeps the stored hash/size/mtime; if moreover the record already has a
thumbnail (or the path is not a video) it is a pure read returning the
record unchanged with no process spawned at all; and across two calls
with no modification in between, the second call never hashes — only the
first can.  (What the original claim misses: a matching record *without*
a thumbnail makes the fast path spawn ffmpeg to backfill it and return
the record with `thumbnail_path` updated.) -/
theorem resolve_fast_path_amended :
    (∀ (env : Env) (w : World) (db : List FileRecord) (fp : String) (st : Stat)
        (ex r : FileRecord) (db2 : List FileRecord) (w2 : World) (effs : List Eff),
        env.statOf (env.resolvePath fp) = some st →
        db.find? (fun q => q.path = env.resolvePath fp) = some ex →
        ex.mtime = st.mtime → ex.size = st.size →
        getOrCreateFileRecord env w db fp = some (r, db2, w2, effs) →
        (∀ q, Eff.hashEff q ∉ effs) ∧ (∀ q, Eff.durationEff q ∉ effs) ∧
          r.hash = ex.hash ∧ r.size = ex.size ∧ r.mtime = ex.mtime) ∧
    (∀ (env : Env) (w : World) (db : List FileRecord) (fp : String) (st : Stat)
        (ex : FileRecord),
        env.statOf (env.resolvePath fp) = some st →
        db.find? (fun q => q.path = env.resolvePath fp) = some ex →
        ex.mtime = st.mtime → ex.size = st.size →
        ((∃ t, ex.thumbnail_path = some t) ∨
          videoExt (env.resolvePath fp) = false) →
        getOrCreateFileRecord env w db fp = some (ex, db, w, [])) ∧
    (∀ (env : Env) (w : World) (db : List FileRecord) (fp : String)
        (r : FileRecord) (db2 : List FileRecord) (w2 : World) (effs : List Eff)
        (r2 : FileRecord) (db3 : List FileRecord) (w3 : World) (effs2 : List Eff),
        getOrCreateFileRecord env w db fp = some (r, db2, w2, effs) →
        getOrCreateFileRecord env w2 db2 fp = some (r2, db3, w3, effs2) →
        (∀ q, Eff.hashEff q ∉ effs2) ∧ (∀ q, Eff.durationEff q ∉ effs2)) :=
  ⟨fun env w db fp st ex r db2 w2 effs h1 h2 h3 h4 h5 =>
      resolve_fast_path_no_hash env w db fp st ex r db2 w2 effs h1 h2 h3 h4 h5,
    fun env w db fp st ex h1 h2 h3 h4 h5 =>
      resolve_fast_path_pure env w db fp st ex h1 h2 h3 h4 h5,
    fun env w db fp r db2 w2 effs r2 db3 w3 effs2 h1 h2 =>
      resolve_second_call_no_hash env w db fp r db2 w2 effs r2 db3 w3 effs2 h1 h2⟩

theorem resolve_fast_path_amended_witness :
    (envExtractAll.statOf (envExtractAll.resolvePath "/a/v.mp4") =
        some ⟨100, 5⟩ ∧
      [recThumb].find?
        (fun q => q.path = envExtractAll.resolvePath "/a/v.mp4") = some recThumb ∧
      recThumb.mtime = (⟨100, 5⟩ : Stat).mtime ∧
      recThumb.size = (⟨100, 5⟩ : Stat).size ∧
      ((∃ t, recThumb.thumbnail_path = some t) ∨
        videoExt (envExtractAll.resolvePath "/a/v.mp4") = false)) ∧
    getOrCreateFileRecord envExtractAll ⟨[]⟩ [recThumb] "/a/v.mp4" =
      some (recThumb, [recThumb], ⟨[]⟩, []) :=
  ⟨⟨rfl, by decide, rfl, rfl, Or.inl ⟨"/thumbnails/h.jpg", rfl⟩⟩,
    resolve_fast_path_amended.2.1 envExtractAll ⟨[]⟩ [recThumb] "/a/v.mp4"
      ⟨100, 5⟩ recThumb rfl (by decide) rfl rfl
      (Or.inl ⟨"/thumbnails/h.jpg", rfl⟩)⟩

/-- C3 as stated is false: with a stored record matching `(size, mtime)`
but lacking a thumbnail, the "fast path" spawns ffmpeg (a `spawnEff`
occurs) and returns a record different from the stored one
(`thumbnail_path` backfilled) — not a pure read. -/
theorem resolve_fast_path_counterexample :
    envExtractAll.statOf "/a/v.mp4" = some ⟨100, 5⟩ ∧
    recNoThumb.size = 100 ∧ recNoThumb.mtime = 5 ∧
    getOrCreateFileRecord envExtractAll ⟨[]⟩ [recNoThumb] "/a/v.mp4" =
      some ({ recNoThumb with thumbnail_path := some "/thumbnails/h.jpg" },
        [{ recNoThumb with thumbnail_path := some "/thumbnails/h.jpg" }],
        ⟨["h.jpg"]⟩, [Eff.spawnEff "/a/v.mp4" 5]) ∧
    ({ recNoThumb with thumbnail_path := some "/thumbnails/h.jpg" } ≠ recNoThumb) :=
  ⟨rfl, rfl, rfl, by decide, by decide⟩

end Nsri
